import Mathlib

/-!
Verification of the graph engine: a shallow embedding of the Rust sources
(`lib.rs`, `graph.rs`, `path.rs`, `pathfinder.rs`, `edge.rs`) and proofs of the
specified properties.  Rust `HashMap`s are modelled as association lists with
insertion-order iteration (one deterministic refinement of the unspecified
hash iteration order); `HashSet<K>` becomes `Finset K`; `Rc` sharing is
dropped since paths are immutable; machine panics (`unwrap`, `usize`
underflow) are modelled as a distinguished `crash` result.
-/

set_option linter.unusedSectionVars false

namespace GraphCore

variable {K : Type} {H : Type} {V : Type}

/-- Association-list lookup: first entry with the given key (HashMap `get`). -/
def alGet [DecidableEq K] : List (K × V) → K → Option V
  | [], _ => none
  | (k, v) :: rest, key => if k = key then some v else alGet rest key

/-- Association-list insert: replace the value in place when the key is
present, append a fresh entry otherwise (HashMap `insert` under
insertion-order iteration). -/
def alInsert [DecidableEq K] : List (K × V) → K → V → List (K × V)
  | [], key, v => [(key, v)]
  | (k, w) :: rest, key, v =>
      if k = key then (k, v) :: rest else (k, w) :: alInsert rest key v

/-- Key list of an association map (HashMap `keys`). -/
def alKeys (m : List (K × V)) : List K := m.map (·.1)

/-- `entry(key).or_default().push(v)`: append `v` to the bucket of `key`,
creating the bucket if needed. -/
def alPush [DecidableEq K] : List (K × List V) → K → V → List (K × List V)
  | [], key, v => [(key, [v])]
  | (k, l) :: rest, key, v =>
      if k = key then (k, l ++ [v]) :: rest else (k, l) :: alPush rest key v

/-- `edge.rs` / `lib.rs`: a directed weighted edge with a per-call sequential
identifier. -/
structure Edge (K H : Type) where
  id : Nat
  a : K
  b : K
  h : H
deriving DecidableEq, Repr

/-- The data of one outgoing connection of a node: the destination key and the
cost.  `Connection::into_edge(id)` turns it into an `Edge` whose origin is the
node that produced it. -/
structure Conn (K H : Type) where
  b : K
  h : H
deriving DecidableEq, Repr

/-- `graph.rs` `Graph`: a map from node key to the node value, where a node
value is abstracted by the connections it reports (`IntoConnections`). -/
structure Graph (K H : Type) where
  map : List (K × List (Conn K H))
deriving Repr

/-- `Connection::into_edge`: the edge produced by connection `c` of node `a`
under sequential id `i`. -/
def Conn.into_edge (c : Conn K H) (a : K) (i : Nat) : Edge K H :=
  ⟨i, a, c.b, c.h⟩

/-- `graph.rs` `generate_edges`: absent key yields the empty sequence;
otherwise each connection is converted into an `Edge` with sequential ids
starting at 0. -/
def Graph.generate_edges [DecidableEq K] (g : Graph K H) (key : K) :
    List (Edge K H) :=
  match alGet g.map key with
  | none => []
  | some conns => conns.enum.map fun p => p.2.into_edge key p.1

theorem generate_edges_absent [DecidableEq K] (g : Graph K H) (key : K)
    (habs : alGet g.map key = none) : g.generate_edges key = [] := by
  unfold Graph.generate_edges
  rw [habs]

theorem generate_edges_ids [DecidableEq K] (g : Graph K H) (key : K)
    (i : Nat) (e : Edge K H) (hget : (g.generate_edges key).get? i = some e) :
    e.id = i := by
  unfold Graph.generate_edges at hget
  cases halg : alGet g.map key with
  | none => rw [halg] at hget; simp at hget
  | some conns =>
      rw [halg] at hget
      simp only [List.get?_eq_getElem?, List.getElem?_map, List.getElem?_enum] at hget
      cases hconn : conns[i]? with
      | none => rw [hconn] at hget; simp at hget
      | some c =>
          rw [hconn] at hget
          simp only [Option.map_some'] at hget
          have he := (Option.some.inj hget).symm
          subst he
          rfl

/-- `path.rs` `Path`: accumulated cost, edge sequence and visited-node set. -/
structure Path (K H : Type) where
  total : H
  path : List (Edge K H)
  nodes : Finset K
deriving DecidableEq

/-- `path.rs` `Ord for Path`: `other.total.cmp(&self.total)` — the comparison
of the totals, reversed. -/
def Path.cmp [LinearOrder H] (p q : Path K H) : Ordering :=
  compare q.total p.total

/-- `path.rs` `SharedPath`: a shared handle to a `Path` (the `Rc` is dropped
since paths are never mutated). -/
structure SharedPath (K H : Type) where
  inner : Path K H
deriving DecidableEq

/-- `SharedPath::new`. -/
def SharedPath.new (p : Path K H) : SharedPath K H := ⟨p⟩

/-- `path.rs` `Ord for SharedPath`: delegates to the pointed-to `Path`. -/
def SharedPath.cmp [LinearOrder H] (p q : SharedPath K H) : Ordering :=
  Path.cmp p.inner q.inner

section Walks

variable [DecidableEq K] [LinearOrderedAddCommMonoid H]

/-- A walk in the graph: a chain of edges, each produced by `generate_edges`
of the node reached so far.  `IsWalk g s l t` means `l` leads from `s` to `t`. -/
inductive IsWalk (g : Graph K H) : K → List (Edge K H) → K → Prop
  | nil (v : K) : IsWalk g v [] v
  | cons {s t : K} {e : Edge K H} {l : List (Edge K H)} :
      e ∈ g.generate_edges s → IsWalk g e.b l t → IsWalk g s (e :: l) t

/-- Total weight of an edge sequence. -/
def walkCost (l : List (Edge K H)) : H := (l.map (·.h)).sum

/-- The node keys visited by a nonempty edge sequence read as a walk from `s`:
the start plus every destination. -/
def walkNodes (s : K) (l : List (Edge K H)) : Finset K :=
  insert s (l.map (·.b)).toFinset

/-- A simple path from `s` to `t`: a nonempty walk visiting no node twice. -/
def SimplePath (g : Graph K H) (s : K) (l : List (Edge K H)) (t : K) : Prop :=
  IsWalk g s l t ∧ l ≠ [] ∧ (s :: l.map (·.b)).Nodup

/-- All weights reported by the graph are non-negative. -/
def NonnegWeights (g : Graph K H) : Prop :=
  ∀ k : K, ∀ e ∈ g.generate_edges k, 0 ≤ e.h

theorem walkCost_nil : walkCost ([] : List (Edge K H)) = 0 := rfl

theorem walkCost_cons (e : Edge K H) (l : List (Edge K H)) :
    walkCost (e :: l) = e.h + walkCost l := by
  simp [walkCost]

theorem walkCost_append (l₁ l₂ : List (Edge K H)) :
    walkCost (l₁ ++ l₂) = walkCost l₁ + walkCost l₂ := by
  simp [walkCost]

theorem IsWalk.append {g : Graph K H} {s m t : K} {l₁ l₂ : List (Edge K H)}
    (h₁ : IsWalk g s l₁ m) (h₂ : IsWalk g m l₂ t) : IsWalk g s (l₁ ++ l₂) t := by
  induction h₁ with
  | nil => exact h₂
  | cons he _ ih => exact IsWalk.cons he (ih h₂)

theorem IsWalk.snoc {g : Graph K H} {s m : K} {l : List (Edge K H)}
    {e : Edge K H} (h : IsWalk g s l m) (he : e ∈ g.generate_edges m) :
    IsWalk g s (l ++ [e]) e.b :=
  h.append (IsWalk.cons he (IsWalk.nil e.b))

theorem walkCost_nonneg {g : Graph K H} {s t : K} {l : List (Edge K H)}
    (hg : NonnegWeights g) (hw : IsWalk g s l t) : 0 ≤ walkCost l := by
  induction hw with
  | nil => simp [walkCost]
  | cons he _ ih =>
      rw [walkCost_cons]
      exact add_nonneg (hg _ _ he) ih

theorem IsWalk.nil_eq {g : Graph K H} {s t : K} (h : IsWalk g s [] t) :
    s = t := by
  cases h
  rfl

theorem IsWalk.cons_elim {g : Graph K H} {s t : K} {e : Edge K H}
    {l : List (Edge K H)} (h : IsWalk g s (e :: l) t) :
    e ∈ g.generate_edges s ∧ IsWalk g e.b l t := by
  cases h with
  | cons he hrest => exact ⟨he, hrest⟩

theorem IsWalk.suffix {g : Graph K H} {s t : K} {e : Edge K H}
    {l₁ l₂ : List (Edge K H)} (h : IsWalk g s (l₁ ++ e :: l₂) t) :
    IsWalk g e.b l₂ t := by
  induction l₁ generalizing s with
  | nil => exact h.cons_elim.2
  | cons e1 rest ih => exact ih h.cons_elim.2

theorem IsWalk.mem_edges {g : Graph K H} {s t : K} {l : List (Edge K H)}
    (h : IsWalk g s l t) {e : Edge K H} (he : e ∈ l) :
    ∃ k, e ∈ g.generate_edges k := by
  induction h with
  | nil => simp at he
  | cons he1 _ ih =>
      rcases List.mem_cons.mp he with rfl | he2
      · exact ⟨_, he1⟩
      · exact ih he2

theorem walkCost_nonneg_of_mem {g : Graph K H} (hg : NonnegWeights g)
    {l : List (Edge K H)} (h : ∀ e ∈ l, ∃ k, e ∈ g.generate_edges k) :
    0 ≤ walkCost l := by
  induction l with
  | nil => simp [walkCost]
  | cons e rest ih =>
      rw [walkCost_cons]
      obtain ⟨k, hk⟩ := h e (List.mem_cons_self e rest)
      exact add_nonneg (hg k e hk) (ih fun e2 he2 => h e2 (List.mem_cons_of_mem e he2))

theorem alGet_mem [DecidableEq K] {m : List (K × V)} {k : K} {v : V}
    (h : alGet m k = some v) : (k, v) ∈ m := by
  induction m with
  | nil => simp [alGet] at h
  | cons kv rest ih =>
      obtain ⟨k', v'⟩ := kv
      simp only [alGet] at h
      by_cases hk : k' = k
      · rw [if_pos hk] at h
        obtain rfl := Option.some.inj h
        subst hk
        exact List.mem_cons_self _ _
      · rw [if_neg hk] at h
        exact List.mem_cons_of_mem _ (ih h)

end Walks

section BellmanFordAll

variable [DecidableEq K] [LinearOrderedAddCommMonoid H]

/-- State of `lib.rs` `bellman_ford`: for each reached vertex, its best known
cost and predecessor edge. -/
abbrev PredMap (K H : Type) := List (K × (H × Edge K H))

/-- Seeding (`lib.rs` lines 38-42): for each edge out of the source, insert
its destination with the edge's cost; later parallel edges overwrite earlier
ones unconditionally. -/
def bfSeed (g : Graph K H) (fr : K) : PredMap K H :=
  (g.generate_edges fr).foldl (fun m e => alInsert m e.b (e.h, e)) []

/-- Relax the edges out of one cloned entry (`lib.rs` lines 49-62): `c` is the
entry's cost as of the round's start, the fold state is the live map and the
round's `updated` flag. -/
def bfRelaxEntry (g : Graph K H) (st : PredMap K H × Bool)
    (entry : K × (H × Edge K H)) : PredMap K H × Bool :=
  (g.generate_edges entry.2.2.b).foldl
    (fun st e =>
      let nc := entry.2.1 + e.h
      match alGet st.1 e.b with
      | some ex => if nc < ex.1 then (alInsert st.1 e.b (nc, e), true) else st
      | none => (alInsert st.1 e.b (nc, e), true))
    st

/-- One relaxation round over a clone of the current map. -/
def bfRound (g : Graph K H) (m : PredMap K H) : PredMap K H × Bool :=
  m.foldl (bfRelaxEntry g) (m, false)

/-- Up to `n` relaxation rounds with early exit when a round makes no update
(`lib.rs` lines 45-67). -/
def bfRounds (g : Graph K H) : Nat → PredMap K H → PredMap K H
  | 0, m => m
  | n + 1, m =>
      let st := bfRound g m
      if st.2 then bfRounds g n st.1 else st.1

/-- Outcome of the extra detection round. -/
inductive BFDetect (K H : Type) where
  | crash
  | found (e : Edge K H)
  | clean
deriving DecidableEq, Repr

/-- Scan one entry's outgoing edges for a still-relaxable edge (`lib.rs` lines
71-95); `paths.get(&new_edge.b).unwrap()` panics when the head is absent. -/
def bfDetectEdges (m : PredMap K H) (c : H) : List (Edge K H) → BFDetect K H
  | [] => .clean
  | e :: rest =>
      match alGet m e.b with
      | none => .crash
      | some ex => if c + e.h < ex.1 then .found e else bfDetectEdges m c rest

/-- The extra detection round over all entries of the (cloned) map. -/
def bfDetect (g : Graph K H) (m : PredMap K H) :
    List (K × (H × Edge K H)) → BFDetect K H
  | [] => .clean
  | entry :: rest =>
      match bfDetectEdges m entry.2.1 (g.generate_edges entry.2.2.b) with
      | .crash => .crash
      | .found e => .found e
      | .clean => bfDetect g m rest

/-- Follow predecessor pointers `n` times (`lib.rs` lines 79-82); the `unwrap`
panics when a vertex on the chain has no entry. -/
def bfWalkN (m : PredMap K H) : Nat → K → Option K
  | 0, v => some v
  | n + 1, v =>
      match alGet m v with
      | none => none
      | some ex => bfWalkN m n ex.2.a

/-- Collect the cycle by following predecessor pointers until the start vertex
reappears (`lib.rs` lines 85-92).  Fuel bounds the unbounded `loop`; running
out of fuel models divergence, `none` from the map models the `unwrap` panic. -/
def bfCollect (m : PredMap K H) (start : K) : Nat → K → Option (List (Edge K H))
  | 0, _ => none
  | n + 1, cv =>
      match alGet m cv with
      | none => none
      | some ex =>
          if ex.2.a = start then some [ex.2]
          else (bfCollect m start n ex.2.a).map (ex.2 :: ·)

/-- Rebuild one vertex's route by following predecessor pointers (`lib.rs`
lines 101-113): the `while let` exits without pushing when the current edge's
origin has no entry, and pushes then stops when the origin is the source. -/
def bfPathBuild (m : PredMap K H) (fr : K) :
    Nat → List (Edge K H) → Edge K H → Option (List (Edge K H))
  | 0, _, _ => none
  | n + 1, acc, cur =>
      match alGet m cur.a with
      | none => some acc
      | some prev =>
          if cur.a = fr then some (acc ++ [cur])
          else bfPathBuild m fr n (acc ++ [cur]) prev.2

/-- Build the final result map (`lib.rs` lines 99-116). -/
def bfReconstructAll (m : PredMap K H) (fr : K) :
    Option (List (K × (H × List (Edge K H)))) :=
  m.foldl
    (fun acc entry =>
      acc.bind fun rp =>
        (bfPathBuild m fr (m.length + 1) [] entry.2.2).map fun p =>
          alInsert rp entry.1 (entry.2.1, p.reverse))
    (some [])

/-- Result of the all-destinations `bellman_ford`: the `Ok` map, the `Err`
negative-cycle edge list, or a panic/divergence. -/
inductive BFRes (K H : Type) where
  | crash
  | err (cycle : List (Edge K H))
  | ok (m : List (K × (H × List (Edge K H))))
deriving DecidableEq, Repr

/-- `lib.rs` `bellman_ford` (all-destinations variant).  With an empty node
map the `n - 1` loop bound underflows, which is a panic. -/
def bellmanFordAll (g : Graph K H) (fr : K) : BFRes K H :=
  match g.map.length with
  | 0 => .crash
  | n' + 1 =>
      let m := bfRounds g n' (bfSeed g fr)
      match bfDetect g m m with
      | .crash => .crash
      | .found e =>
          match bfWalkN m (n' + 1) e.b with
          | none => .crash
          | some start =>
              match bfCollect m start (m.length + 1) start with
              | none => .crash
              | some cyc => .err cyc
      | .clean =>
          match bfReconstructAll m fr with
          | none => .crash
          | some rp => .ok rp

end BellmanFordAll

section BellmanFordSingleTarget

variable [DecidableEq K] [LinearOrderedAddCommMonoid H]

/-- Relax the edges out of one key (`pathfinder.rs` lines 91-121): the key's
current path is fetched from the live map once, then each outgoing edge whose
destination is not yet on that path is relaxed against the live map. -/
def stRelaxKey (g : Graph K H) (st : List (K × SharedPath K H) × Bool)
    (k : K) : List (K × SharedPath K H) × Bool :=
  match alGet st.1 k with
  | none => st
  | some cp =>
      (g.generate_edges k).foldl
        (fun (st : List (K × SharedPath K H) × Bool) (e : Edge K H) =>
          if e.b ∈ cp.inner.nodes then st
          else
            let nt : H := cp.inner.total + e.h
            let relax : Bool :=
              match alGet st.1 e.b with
              | some ex => decide (nt < ex.inner.total)
              | none => true
            if relax then
              (alInsert st.1 e.b
                ⟨⟨nt, cp.inner.path ++ [e], insert e.b cp.inner.nodes⟩⟩, true)
            else st)
        st

/-- One round over a snapshot of the current keys (`pathfinder.rs` lines
85-127). -/
def stRound (g : Graph K H) (m : List (K × SharedPath K H)) :
    List (K × SharedPath K H) × Bool :=
  (alKeys m).foldl (stRelaxKey g) (m, false)

/-- Up to `n` rounds with early exit on a no-update round. -/
def stRounds (g : Graph K H) : Nat → List (K × SharedPath K H) →
    List (K × SharedPath K H)
  | 0, m => m
  | n + 1, m =>
      let st := stRound g m
      if st.2 then stRounds g n st.1 else st.1

/-- `pathfinder.rs` `bellman_ford` (single-target, cycle-avoiding variant).
With an empty node map the `num_nodes - 1` bound underflows (outer `none`);
otherwise the result is `best_paths.remove(target)`. -/
def bellmanFordST (g : Graph K H) (s t : K) : Option (Option (SharedPath K H)) :=
  match g.map.length with
  | 0 => none
  | n' + 1 =>
      let init := alInsert ([] : List (K × SharedPath K H)) s
        (SharedPath.new ⟨0, [], {s}⟩)
      some (alGet (stRounds g n' init) t)

end BellmanFordSingleTarget

section PathEnumeration

variable [DecidableEq K] [LinearOrderedAddCommMonoid H]

/-- `graph.rs` `propagate_path`: `from.inner.path.last().unwrap()` panics on
an empty edge list (`none`); otherwise the path is extended with every
outgoing edge of the last node, adding the edge's weight to the total and its
destination to the visited-node set. -/
def Graph.propagate_path (g : Graph K H) (p : SharedPath K H) :
    Option (List (SharedPath K H)) :=
  match p.inner.path.getLast? with
  | none => none
  | some last =>
      some ((g.generate_edges last.b).map fun e =>
        ⟨⟨p.inner.total + e.h, p.inner.path ++ [e], insert e.b p.inner.nodes⟩⟩)

/-- Result of `Graph::map`: the result mapping, a panic, or fuel exhaustion
(the embedding's bound on the unbounded `while let` loop). -/
inductive MRes (K H : Type) where
  | crash
  | fuel
  | ok (m : List (K × List (SharedPath K H)))
deriving DecidableEq

/-- Seed paths of `Graph::map` (`graph.rs` lines 45-59): one single-edge path
per outgoing edge of the source, with visited-node set `{edge.a}`. -/
def mapSeeds (g : Graph K H) (fr : K) : List (SharedPath K H) :=
  (g.generate_edges fr).map fun e => SharedPath.new ⟨e.h, [e], {e.a}⟩

/-- Handle one extension inside `Graph::map`'s loop (`graph.rs` lines 76-88):
record it under its new last node, and mark it for pushing back only when
that node is not in its visited-node set.  The second state component
accumulates the pushed paths, most recently pushed first (the stack top). -/
def mapHandleExt (st : List (K × List (SharedPath K H)) × List (SharedPath K H))
    (cp : SharedPath K H) :
    List (K × List (SharedPath K H)) × List (SharedPath K H) :=
  match cp.inner.path.getLast? with
  | none => st
  | some ne =>
      (alPush st.1 ne.b cp,
       if ne.b ∈ cp.inner.nodes then st.2 else cp :: st.2)

/-- The `while let Some(old_path) = open_paths.pop()` loop of `Graph::map`
(`graph.rs` lines 63-93).  The stack's head is its top (`Vec` push/pop act on
the end).  Dead-end paths are recorded; otherwise every one-edge extension is
recorded under its new last node and pushed back only if that node is not in
the extension's visited-node set. -/
def mapLoop (g : Graph K H) :
    Nat → List (SharedPath K H) → List (K × List (SharedPath K H)) → MRes K H
  | 0, _, _ => .fuel
  | fuel + 1, stack, acc =>
      match stack with
      | [] => .ok acc
      | old :: rest =>
          match old.inner.path.getLast? with
          | none => mapLoop g fuel rest acc
          | some last =>
              if (g.generate_edges last.b).isEmpty then
                mapLoop g fuel rest (alPush acc last.b old)
              else
                match g.propagate_path old with
                | none => .crash
                | some news =>
                    let st := news.foldl mapHandleExt (acc, [])
                    mapLoop g fuel (st.2 ++ rest) st.1

/-- Total number of connections stored in the graph. -/
def numEdges (g : Graph K H) : Nat := (g.map.map (fun kv => kv.2.length)).sum

/-- Fuel budget for the `Graph::map` loop. -/
def mapFuel (g : Graph K H) : Nat :=
  (numEdges g + 1) * (numEdges g + 1) + g.map.length + 1

/-- `graph.rs` `Graph::map`: exhaustive path enumeration from a source. -/
def graphMap (g : Graph K H) (fr : K) : MRes K H :=
  mapLoop g (mapFuel g) (mapSeeds g fr).reverse []

end PathEnumeration

section AStar

variable [DecidableEq K] [LinearOrderedAddCommMonoid H]

/-- `BinaryHeap::pop`: remove and return a greatest element w.r.t. the
`SharedPath` ordering (which is reversed on totals, so a greatest element has
minimal total).  Ties are broken deterministically towards the front. -/
def popMax : List (SharedPath K H) →
    Option (SharedPath K H × List (SharedPath K H))
  | [] => none
  | x :: xs =>
      match popMax xs with
      | none => some (x, [])
      | some (m, rest) =>
          if SharedPath.cmp x m = Ordering.lt then some (m, x :: rest)
          else some (x, xs)

/-- Result of `a_star`: the collected paths, a panic, or fuel exhaustion. -/
inductive ARes (K H : Type) where
  | crash
  | fuel
  | ok (paths : List (SharedPath K H))
deriving DecidableEq

/-- The main loop of `a_star` (`pathfinder.rs` lines 46-66): pop the path
with smallest total; skip it if its last node is closed; close the node;
stop with the path if the node is the target; otherwise push every one-edge
extension. -/
def aStarLoop (g : Graph K H) (tgt : K) :
    Nat → Finset K → List (SharedPath K H) → List (SharedPath K H) → ARes K H
  | 0, _, _, _ => .fuel
  | fuel + 1, closed, heap, acc =>
      match popMax heap with
      | none => .ok acc
      | some (p, rest) =>
          match p.inner.path.getLast? with
          | none => aStarLoop g tgt fuel closed rest acc
          | some last =>
              if last.b ∈ closed then aStarLoop g tgt fuel closed rest acc
              else
                let closed' := insert last.b closed
                if last.b = tgt then .ok (acc ++ [p])
                else
                  match g.propagate_path p with
                  | none => .crash
                  | some news => aStarLoop g tgt fuel closed' (rest ++ news) acc

theorem sharedPath_cmp_lt_iff (p q : SharedPath K H) :
    SharedPath.cmp p q = Ordering.lt ↔ q.inner.total < p.inner.total :=
  show compare q.inner.total p.inner.total = Ordering.lt ↔ _ from
    compare_lt_iff_lt

theorem popMax_none_iff (l : List (SharedPath K H)) :
    popMax l = none ↔ l = [] := by
  cases l with
  | nil => simp [popMax]
  | cons x xs =>
      constructor
      · intro hc
        exfalso
        cases hxs : popMax xs with
        | none =>
            simp only [popMax, hxs] at hc
            exact Option.noConfusion hc
        | some pr =>
            obtain ⟨m, rest⟩ := pr
            simp only [popMax, hxs] at hc
            by_cases hcmp : SharedPath.cmp x m = Ordering.lt
            · rw [if_pos hcmp] at hc
              exact Option.noConfusion hc
            · rw [if_neg hcmp] at hc
              exact Option.noConfusion hc
      · intro hc
        exact List.noConfusion hc

theorem popMax_perm {l : List (SharedPath K H)} {p : SharedPath K H}
    {rest : List (SharedPath K H)} (h : popMax l = some (p, rest)) :
    l.Perm (p :: rest) := by
  induction l generalizing p rest with
  | nil => simp [popMax] at h
  | cons x xs ih =>
      cases hxs : popMax xs with
      | none =>
          simp only [popMax, hxs, Option.some.injEq, Prod.mk.injEq] at h
          obtain ⟨rfl, rfl⟩ := h
          rw [(popMax_none_iff xs).mp hxs]
      | some pr =>
          obtain ⟨m, r⟩ := pr
          have hperm := ih hxs
          simp only [popMax, hxs] at h
          by_cases hcmp : SharedPath.cmp x m = Ordering.lt
          · rw [if_pos hcmp] at h
            simp only [Option.some.injEq, Prod.mk.injEq] at h
            obtain ⟨rfl, rfl⟩ := h
            exact (List.Perm.cons x hperm).trans (List.Perm.swap m x r)
          · rw [if_neg hcmp] at h
            simp only [Option.some.injEq, Prod.mk.injEq] at h
            obtain ⟨rfl, rfl⟩ := h
            exact List.Perm.refl _

theorem popMax_mem {l : List (SharedPath K H)} {p : SharedPath K H}
    {rest : List (SharedPath K H)} (h : popMax l = some (p, rest)) : p ∈ l :=
  (popMax_perm h).mem_iff.mpr (List.mem_cons_self p rest)

theorem popMax_rest_mem {l rest : List (SharedPath K H)} {p q : SharedPath K H}
    (h : popMax l = some (p, rest)) (hq : q ∈ rest) : q ∈ l :=
  (popMax_perm h).mem_iff.mpr (List.mem_cons_of_mem p hq)

theorem popMax_mem_rest_of_ne {l rest : List (SharedPath K H)}
    {p q : SharedPath K H} (h : popMax l = some (p, rest)) (hq : q ∈ l)
    (hne : q ≠ p) : q ∈ rest := by
  rcases List.mem_cons.mp ((popMax_perm h).mem_iff.mp hq) with hc | hc
  · exact absurd hc hne
  · exact hc

theorem popMax_min {l rest : List (SharedPath K H)} {p : SharedPath K H}
    (h : popMax l = some (p, rest)) :
    ∀ q ∈ l, p.inner.total ≤ q.inner.total := by
  induction l generalizing p rest with
  | nil => simp [popMax] at h
  | cons x xs ih =>
      cases hxs : popMax xs with
      | none =>
          simp only [popMax, hxs, Option.some.injEq, Prod.mk.injEq] at h
          obtain ⟨rfl, rfl⟩ := h
          have hnil := (popMax_none_iff xs).mp hxs
          subst hnil
          intro q hq
          rw [List.mem_singleton] at hq
          subst hq
          exact le_refl _
      | some pr =>
          obtain ⟨m, r⟩ := pr
          have hmin := ih hxs
          simp only [popMax, hxs] at h
          by_cases hcmp : SharedPath.cmp x m = Ordering.lt
          · rw [if_pos hcmp] at h
            simp only [Option.some.injEq, Prod.mk.injEq] at h
            obtain ⟨rfl, rfl⟩ := h
            intro q hq
            rcases List.mem_cons.mp hq with hqx | hq
            · rw [hqx]
              exact le_of_lt ((sharedPath_cmp_lt_iff x m).mp hcmp)
            · exact hmin q hq
          · rw [if_neg hcmp] at h
            simp only [Option.some.injEq, Prod.mk.injEq] at h
            obtain ⟨rfl, rfl⟩ := h
            intro q hq
            rcases List.mem_cons.mp hq with hqx | hq
            · rw [hqx]
            · exact le_trans
                (not_lt.mp fun hlt => hcmp ((sharedPath_cmp_lt_iff x m).mpr hlt))
                (hmin q hq)

/-- Seed paths of `a_star` (`pathfinder.rs` lines 33-44): one single-edge path
per outgoing edge of the source, with visited-node set `{e.a, e.b}`. -/
def aStarSeeds (g : Graph K H) (fr : K) : List (SharedPath K H) :=
  (g.generate_edges fr).map fun e => ⟨⟨e.h, [e], {e.a, e.b}⟩⟩

/-- Fuel budget for the `a_star` loop. -/
def aStarFuel (g : Graph K H) : Nat :=
  (numEdges g + 1) * (numEdges g + 1) + 1

/-- `pathfinder.rs` `a_star`: uniform-cost best-first search from `fr` to
`tgt`. -/
def aStar (g : Graph K H) (fr tgt : K) : ARes K H :=
  aStarLoop g tgt (aStarFuel g) ∅ (aStarSeeds g fr) []

end AStar

section CrashFreedom

variable [DecidableEq K] [LinearOrderedAddCommMonoid H]

theorem propagate_path_none_iff (g : Graph K H) (p : SharedPath K H) :
    g.propagate_path p = none ↔ p.inner.path = [] := by
  unfold Graph.propagate_path
  cases hl : p.inner.path.getLast? with
  | none =>
      simp only [hl]
      simp [List.getLast?_eq_none_iff.mp hl]
  | some last =>
      simp only [hl]
      constructor
      · intro hc
        exact Option.noConfusion hc
      · intro hc
        rw [hc] at hl
        simp at hl

theorem propagate_path_eq_some {g : Graph K H} {p : SharedPath K H}
    {last : Edge K H} (hl : p.inner.path.getLast? = some last) :
    g.propagate_path p =
      some ((g.generate_edges last.b).map fun e =>
        ⟨⟨p.inner.total + e.h, p.inner.path ++ [e], insert e.b p.inner.nodes⟩⟩) := by
  unfold Graph.propagate_path
  rw [hl]

theorem mapHandleExt_pushed {news : List (SharedPath K H)}
    {st0 : List (K × List (SharedPath K H)) × List (SharedPath K H)}
    {cp : SharedPath K H} (h : cp ∈ (news.foldl mapHandleExt st0).2) :
    cp ∈ st0.2 ∨ cp ∈ news := by
  induction news generalizing st0 with
  | nil => exact Or.inl h
  | cons x xs ih =>
      rw [List.foldl_cons] at h
      rcases ih h with hmem | hmem
      · unfold mapHandleExt at hmem
        cases hl : x.inner.path.getLast? with
        | none =>
            rw [hl] at hmem
            exact Or.inl hmem
        | some ne =>
            rw [hl] at hmem
            dsimp only at hmem
            by_cases hin : ne.b ∈ x.inner.nodes
            · rw [if_pos hin] at hmem
              exact Or.inl hmem
            · rw [if_neg hin] at hmem
              rcases List.mem_cons.mp hmem with hx | hx
              · exact Or.inr (hx ▸ List.mem_cons_self x xs)
              · exact Or.inl hx
      · exact Or.inr (List.mem_cons_of_mem x hmem)

theorem mapLoop_ne_crash (g : Graph K H) :
    ∀ (fuel : Nat) (stack : List (SharedPath K H))
      (acc : List (K × List (SharedPath K H))),
      (∀ p ∈ stack, p.inner.path ≠ []) →
      mapLoop g fuel stack acc ≠ MRes.crash := by
  intro fuel
  induction fuel with
  | zero =>
      intro stack acc _ hc
      exact MRes.noConfusion hc
  | succ fuel ih =>
      intro stack acc hstack
      cases stack with
      | nil =>
          intro hc
          exact MRes.noConfusion hc
      | cons old rest =>
          simp only [mapLoop]
          cases hl : old.inner.path.getLast? with
          | none => exact ih rest acc fun p hp => hstack p (List.mem_cons_of_mem old hp)
          | some last =>
              dsimp only
              by_cases hemp : (g.generate_edges last.b).isEmpty
              · rw [if_pos hemp]
                exact ih rest _ fun p hp => hstack p (List.mem_cons_of_mem old hp)
              · rw [if_neg hemp, propagate_path_eq_some hl]
                refine ih _ _ ?_
                intro p hp
                rcases List.mem_append.mp hp with hp | hp
                · rcases mapHandleExt_pushed hp with hp | hp
                  · simp at hp
                  · rcases List.mem_map.mp hp with ⟨e, _, rfl⟩
                    simp
                · exact hstack p (List.mem_cons_of_mem old hp)

theorem aStarLoop_ne_crash (g : Graph K H) (tgt : K) :
    ∀ (fuel : Nat) (closed : Finset K) (heap acc : List (SharedPath K H)),
      (∀ p ∈ heap, p.inner.path ≠ []) →
      aStarLoop g tgt fuel closed heap acc ≠ ARes.crash := by
  intro fuel
  induction fuel with
  | zero =>
      intro closed heap acc _ hc
      exact ARes.noConfusion hc
  | succ fuel ih =>
      intro closed heap acc hheap
      simp only [aStarLoop]
      cases hpop : popMax heap with
      | none =>
          intro hc
          exact ARes.noConfusion hc
      | some pr =>
          obtain ⟨p, rest⟩ := pr
          dsimp only
          have hrest : ∀ q ∈ rest, q.inner.path ≠ [] :=
            fun q hq => hheap q (popMax_rest_mem hpop hq)
          cases hl : p.inner.path.getLast? with
          | none =>
              dsimp only
              exact ih closed rest acc hrest
          | some last =>
              dsimp only
              by_cases hin : last.b ∈ closed
              · rw [if_pos hin]
                exact ih closed rest acc hrest
              · rw [if_neg hin]
                by_cases htgt : last.b = tgt
                · rw [if_pos htgt]
                  intro hc
                  exact ARes.noConfusion hc
                · rw [if_neg htgt, propagate_path_eq_some hl]
                  refine ih _ _ _ ?_
                  intro q hq
                  rcases List.mem_append.mp hq with hq | hq
                  · exact hrest q hq
                  · rcases List.mem_map.mp hq with ⟨e, _, rfl⟩
                    simp

end CrashFreedom

section NodeSets

variable [DecidableEq K] [LinearOrderedAddCommMonoid H]

/-- The node-set shape of paths built by `a_star`: the visited-node set is the
first edge's origin plus every edge's destination (the full round trip). -/
def HeadNodes (p : SharedPath K H) : Prop :=
  ∃ (e : Edge K H) (l : List (Edge K H)),
    p.inner.path = e :: l ∧ p.inner.nodes = walkNodes e.a (e :: l)

/-- The node-set shape of paths built by `Graph::map`: the visited-node set is
the first edge's origin plus the destinations of all edges after the first
(the first edge's destination is missing). -/
def TailNodes (p : SharedPath K H) : Prop :=
  ∃ (e : Edge K H) (l : List (Edge K H)),
    p.inner.path = e :: l ∧
    p.inner.nodes = insert e.a (l.map (fun e2 => e2.b)).toFinset

theorem insert_snoc_toFinset (a c : K) (xs : List K) :
    insert c (insert a xs.toFinset) = insert a (xs ++ [c]).toFinset := by
  ext x
  simp only [Finset.mem_insert, List.mem_toFinset, List.mem_append,
    List.mem_singleton]
  tauto

theorem headNodes_propagate {g : Graph K H} {p q : SharedPath K H}
    {news : List (SharedPath K H)} (hp : HeadNodes p)
    (hprop : g.propagate_path p = some news) (hq : q ∈ news) : HeadNodes q := by
  obtain ⟨e, l, hpath, hnodes⟩ := hp
  have hne : p.inner.path ≠ [] := by rw [hpath]; exact List.noConfusion
  obtain ⟨last, hlast⟩ := Option.ne_none_iff_exists'.mp
    (fun hnone => hne (List.getLast?_eq_none_iff.mp hnone))
  rw [propagate_path_eq_some hlast] at hprop
  obtain rfl := Option.some.inj hprop.symm
  rcases List.mem_map.mp hq with ⟨e2, _, rfl⟩
  refine ⟨e, l ++ [e2], ?_, ?_⟩
  · show p.inner.path ++ [e2] = e :: (l ++ [e2])
    rw [hpath]
    rfl
  · show insert e2.b p.inner.nodes = walkNodes e.a (e :: (l ++ [e2]))
    rw [hnodes]
    unfold walkNodes
    rw [insert_snoc_toFinset]
    congr 1
    simp

theorem tailNodes_propagate {g : Graph K H} {p q : SharedPath K H}
    {news : List (SharedPath K H)} (hp : TailNodes p)
    (hprop : g.propagate_path p = some news) (hq : q ∈ news) : TailNodes q := by
  obtain ⟨e, l, hpath, hnodes⟩ := hp
  have hne : p.inner.path ≠ [] := by rw [hpath]; exact List.noConfusion
  obtain ⟨last, hlast⟩ := Option.ne_none_iff_exists'.mp
    (fun hnone => hne (List.getLast?_eq_none_iff.mp hnone))
  rw [propagate_path_eq_some hlast] at hprop
  obtain rfl := Option.some.inj hprop.symm
  rcases List.mem_map.mp hq with ⟨e2, _, rfl⟩
  refine ⟨e, l ++ [e2], ?_, ?_⟩
  · show p.inner.path ++ [e2] = e :: (l ++ [e2])
    rw [hpath]
    rfl
  · show insert e2.b p.inner.nodes = _
    rw [hnodes]
    rw [insert_snoc_toFinset]
    congr 1
    simp

theorem alPush_vals {m : List (K × List (SharedPath K H))} {k : K}
    {v : SharedPath K H} :
    ∀ {kv : K × List (SharedPath K H)} {x : SharedPath K H},
      kv ∈ alPush m k v → x ∈ kv.2 → (∃ kv' ∈ m, x ∈ kv'.2) ∨ x = v := by
  induction m with
  | nil =>
      intro kv x hkv hx
      simp only [alPush, List.mem_singleton] at hkv
      subst hkv
      rcases List.mem_singleton.mp hx with rfl
      exact Or.inr rfl
  | cons hd rest ih =>
      intro kv x hkv hx
      obtain ⟨k', l⟩ := hd
      simp only [alPush] at hkv
      by_cases hk : k' = k
      · rw [if_pos hk] at hkv
        rcases List.mem_cons.mp hkv with rfl | hkv
        · rcases List.mem_append.mp hx with hx | hx
          · exact Or.inl ⟨(k', l), List.mem_cons_self _ _, hx⟩
          · exact Or.inr (List.mem_singleton.mp hx)
        · exact Or.inl ⟨kv, List.mem_cons_of_mem _ hkv, hx⟩
      · rw [if_neg hk] at hkv
        rcases List.mem_cons.mp hkv with rfl | hkv
        · exact Or.inl ⟨(k', l), List.mem_cons_self _ _, hx⟩
        · rcases ih hkv hx with ⟨kv', hkv', hx'⟩ | hx'
          · exact Or.inl ⟨kv', List.mem_cons_of_mem _ hkv', hx'⟩
          · exact Or.inr hx'

theorem mapHandleExt_recorded {news : List (SharedPath K H)}
    {st0 : List (K × List (SharedPath K H)) × List (SharedPath K H)}
    {kv : K × List (SharedPath K H)} {x : SharedPath K H}
    (hkv : kv ∈ (news.foldl mapHandleExt st0).1) (hx : x ∈ kv.2) :
    (∃ kv' ∈ st0.1, x ∈ kv'.2) ∨ x ∈ news := by
  induction news generalizing st0 with
  | nil => exact Or.inl ⟨kv, hkv, hx⟩
  | cons y ys ih =>
      rw [List.foldl_cons] at hkv
      rcases ih hkv with ⟨kv', hkv', hx'⟩ | hx'
      · unfold mapHandleExt at hkv'
        cases hl : y.inner.path.getLast? with
        | none =>
            rw [hl] at hkv'
            exact Or.inl ⟨kv', hkv', hx'⟩
        | some ne =>
            rw [hl] at hkv'
            dsimp only at hkv'
            rcases alPush_vals hkv' hx' with ⟨kv2, hkv2, hx2⟩ | hx2
            · exact Or.inl ⟨kv2, hkv2, hx2⟩
            · exact Or.inr (hx2 ▸ List.mem_cons_self y ys)
      · exact Or.inr (List.mem_cons_of_mem y hx')

theorem mapLoop_ok_tailNodes (g : Graph K H) :
    ∀ (fuel : Nat) (stack : List (SharedPath K H))
      (acc m : List (K × List (SharedPath K H))),
      (∀ p ∈ stack, TailNodes p) →
      (∀ kv ∈ acc, ∀ p ∈ kv.2, TailNodes p) →
      mapLoop g fuel stack acc = MRes.ok m →
      ∀ kv ∈ m, ∀ p ∈ kv.2, TailNodes p := by
  intro fuel
  induction fuel with
  | zero =>
      intro stack acc m _ _ hc
      exact MRes.noConfusion hc
  | succ fuel ih =>
      intro stack acc m hstack hacc heq
      cases stack with
      | nil =>
          simp only [mapLoop] at heq
          obtain rfl := MRes.ok.inj heq
          exact hacc
      | cons old rest =>
          simp only [mapLoop] at heq
          have hrest : ∀ p ∈ rest, TailNodes p :=
            fun p hp => hstack p (List.mem_cons_of_mem old hp)
          cases hl : old.inner.path.getLast? with
          | none =>
              rw [hl] at heq
              exact ih rest acc m hrest hacc heq
          | some last =>
              rw [hl] at heq
              dsimp only at heq
              by_cases hemp : (g.generate_edges last.b).isEmpty
              · rw [if_pos hemp] at heq
                refine ih rest _ m hrest ?_ heq
                intro kv hkv p hp
                rcases alPush_vals hkv hp with ⟨kv', hkv', hp'⟩ | hp'
                · exact hacc kv' hkv' p hp'
                · exact hp' ▸ hstack old (List.mem_cons_self old rest)
              · rw [if_neg hemp, propagate_path_eq_some hl] at heq
                dsimp only at heq
                refine ih _ _ m ?_ ?_ heq
                · intro p hp
                  rcases List.mem_append.mp hp with hp | hp
                  · rcases mapHandleExt_pushed hp with hp' | hp'
                    · simp at hp'
                    · exact tailNodes_propagate
                        (hstack old (List.mem_cons_self old rest))
                        (propagate_path_eq_some hl) hp'
                  · exact hrest p hp
                · intro kv hkv p hp
                  rcases mapHandleExt_recorded hkv hp with ⟨kv', hkv', hp'⟩ | hp'
                  · exact hacc kv' hkv' p hp'
                  · exact tailNodes_propagate
                      (hstack old (List.mem_cons_self old rest))
                      (propagate_path_eq_some hl) hp'

theorem aStarLoop_ok_headNodes (g : Graph K H) (tgt : K) :
    ∀ (fuel : Nat) (closed : Finset K) (heap acc res : List (SharedPath K H)),
      (∀ p ∈ heap, HeadNodes p) →
      (∀ p ∈ acc, HeadNodes p) →
      aStarLoop g tgt fuel closed heap acc = ARes.ok res →
      ∀ p ∈ res, HeadNodes p := by
  intro fuel
  induction fuel with
  | zero =>
      intro closed heap acc res _ _ hc
      exact ARes.noConfusion hc
  | succ fuel ih =>
      intro closed heap acc res hheap hacc heq
      simp only [aStarLoop] at heq
      cases hpop : popMax heap with
      | none =>
          rw [hpop] at heq
          obtain rfl := ARes.ok.inj heq
          exact hacc
      | some pr =>
          obtain ⟨p, rest⟩ := pr
          rw [hpop] at heq
          dsimp only at heq
          have hrest : ∀ q ∈ rest, HeadNodes q :=
            fun q hq => hheap q (popMax_rest_mem hpop hq)
          cases hl : p.inner.path.getLast? with
          | none =>
              rw [hl] at heq
              exact ih closed rest acc res hrest hacc heq
          | some last =>
              rw [hl] at heq
              dsimp only at heq
              by_cases hin : last.b ∈ closed
              · rw [if_pos hin] at heq
                exact ih closed rest acc res hrest hacc heq
              · rw [if_neg hin] at heq
                by_cases htgt : last.b = tgt
                · rw [if_pos htgt] at heq
                  obtain rfl := ARes.ok.inj heq
                  intro q hq
                  rcases List.mem_append.mp hq with hq | hq
                  · exact hacc q hq
                  · rcases List.mem_singleton.mp hq with rfl
                    exact hheap q (popMax_mem hpop)
                · rw [if_neg htgt, propagate_path_eq_some hl] at heq
                  refine ih _ _ acc res ?_ hacc heq
                  intro q hq
                  rcases List.mem_append.mp hq with hq | hq
                  · exact hrest q hq
                  · exact headNodes_propagate (hheap p (popMax_mem hpop))
                      (propagate_path_eq_some hl) hq

end NodeSets

section Optimality

variable [DecidableEq K] [LinearOrderedAddCommMonoid H]

/-- Every destination key any `generate_edges` call can ever report. -/
def heads (g : Graph K H) : Finset K :=
  ((g.map.flatMap fun kv => kv.2).map fun c => c.b).toFinset

theorem generate_edges_b_mem_heads {g : Graph K H} {k : K} {e : Edge K H}
    (he : e ∈ g.generate_edges k) : e.b ∈ heads g := by
  unfold Graph.generate_edges at he
  cases halg : alGet g.map k with
  | none => rw [halg] at he; simp at he
  | some conns =>
      rw [halg] at he
      rcases List.mem_map.mp he with ⟨p, hp, rfl⟩
      have hc : p.2 ∈ conns :=
        List.getElem?_mem (List.mem_enum_iff_getElem?.mp hp)
      unfold heads
      rw [List.mem_toFinset]
      exact List.mem_map.mpr ⟨p.2, List.mem_flatMap.mpr ⟨(k, conns), alGet_mem halg, hc⟩, rfl⟩

theorem generate_edges_length_le {g : Graph K H} (k : K) :
    (g.generate_edges k).length ≤ numEdges g := by
  unfold Graph.generate_edges
  cases halg : alGet g.map k with
  | none => simp
  | some conns =>
      have hmem := alGet_mem halg
      have : conns.length ≤ numEdges g := by
        unfold numEdges
        refine List.single_le_sum (fun x _ => Nat.zero_le x) _ ?_
        exact List.mem_map.mpr ⟨(k, conns), hmem, rfl⟩
      simpa using this

theorem IsWalk.getLast_b {g : Graph K H} {s t : K} {l : List (Edge K H)}
    {e : Edge K H} (hw : IsWalk g s l t) (hl : l.getLast? = some e) :
    e.b = t := by
  induction l generalizing s with
  | nil => simp at hl
  | cons x xs ih =>
      obtain ⟨hx, hrest⟩ := hw.cons_elim
      cases xs with
      | nil =>
          simp only [List.getLast?_singleton, Option.some.injEq] at hl
          subst hl
          exact hrest.nil_eq
      | cons y ys =>
          rw [List.getLast?_cons_cons] at hl
          exact ih hrest hl

theorem no_simple_path_self {g : Graph K H} {fr : K} {l : List (Edge K H)}
    (hsp : SimplePath g fr l fr) : False := by
  obtain ⟨hw, hne, hnodup⟩ := hsp
  obtain ⟨e, hl⟩ := Option.ne_none_iff_exists'.mp
    (fun hnone => hne (List.getLast?_eq_none_iff.mp hnone))
  have hb : e.b = fr := hw.getLast_b hl
  have hmem : e ∈ l := by
    rcases List.mem_getLast?_eq_getLast (show e ∈ l.getLast? from hl) with ⟨h0, he⟩
    rw [he]
    exact List.getLast_mem h0
  have hfr : fr ∈ l.map (fun e2 => e2.b) :=
    List.mem_map.mpr ⟨e, hmem, hb⟩
  rcases List.nodup_cons.mp hnodup with ⟨hnot, _⟩
  exact hnot hfr

/-- From a walk whose destination list has no duplicates, extract a simple
path to the same target of no greater cost (cutting the prefix before a
revisit of the start). -/
theorem extract_simple {g : Graph K H} {fr t : K} {l : List (Edge K H)}
    (hg : NonnegWeights g) (hw : IsWalk g fr l t) (hne : l ≠ [])
    (hnodup : (l.map (fun e => e.b)).Nodup)
    (hex : ∃ l1, SimplePath g fr l1 t) :
    ∃ l0, SimplePath g fr l0 t ∧ walkCost l0 ≤ walkCost l := by
  by_cases hfr : fr ∈ l.map (fun e => e.b)
  · rcases List.mem_map.mp hfr with ⟨e, hmem, hb⟩
    obtain ⟨l1, l2, rfl⟩ := List.append_of_mem hmem
    cases l2 with
    | nil =>
        exfalso
        have hb2 : e.b = t := hw.getLast_b (by simp)
        obtain ⟨l1', hsp⟩ := hex
        rw [← hb2, hb] at hsp
        exact no_simple_path_self hsp
    | cons y ys =>
        have hwsuf : IsWalk g fr (y :: ys) t := by
          have := hw.suffix
          rwa [hb] at this
        have hnodup2 : (fr :: (y :: ys).map fun e2 => e2.b).Nodup := by
          have hsplit : (l1 ++ e :: y :: ys).map (fun e2 => e2.b) =
              (l1.map fun e2 => e2.b) ++ fr :: ((y :: ys).map fun e2 => e2.b) := by
            rw [List.map_append, List.map_cons, hb]
          rw [hsplit] at hnodup
          exact hnodup.of_append_right
        refine ⟨y :: ys, ⟨hwsuf, List.noConfusion, hnodup2⟩, ?_⟩
        have hmems : ∀ e2 ∈ l1 ++ e :: y :: ys, ∃ k, e2 ∈ g.generate_edges k :=
          fun e2 he2 => hw.mem_edges he2
        have h1 : 0 ≤ walkCost l1 :=
          walkCost_nonneg_of_mem hg fun e2 he2 =>
            hmems e2 (List.mem_append_left _ he2)
        have h2 : 0 ≤ e.h := by
          obtain ⟨k, hk⟩ := hmems e (List.mem_append_right _ (List.mem_cons_self _ _))
          exact hg k e hk
        have hsum : walkCost (l1 ++ e :: y :: ys) =
            (walkCost l1 + e.h) + walkCost (y :: ys) := by
          rw [walkCost_append, walkCost_cons, add_assoc]
        rw [hsum]
        exact le_add_of_nonneg_left (add_nonneg h1 h2)
  · exact ⟨l, ⟨hw, hne, List.nodup_cons.mpr ⟨hfr, hnodup⟩⟩, le_refl _⟩

theorem walkCost_singleton (e : Edge K H) : walkCost [e] = e.h := by
  simp [walkCost]

theorem dests_eq_dropLast_concat {l : List (Edge K H)} {last : Edge K H}
    (hl : l.getLast? = some last) :
    l.map (fun e => e.b) = (l.dropLast.map fun e => e.b) ++ [last.b] := by
  conv_lhs => rw [← List.dropLast_append_getLast? last hl]
  rw [List.map_append]
  rfl

/-- The ghost invariant of the `a_star` loop: `C` is the closed set, `heap`
the frontier, and `gh` records (as ghost state) the cost at which each closed
node was closed.  `heapOk` says every frontier path is a real walk from the
source with the right total, whose intermediate destinations are closed and
pairwise distinct; `ghMin`/`ghAtt` say a closed node's ghost cost is the
minimum cost of a nonempty walk from the source and is attained; `seedCover`
and `frontCover` say every edge out of the source or out of a closed node
into the open region is still represented in the frontier at its relaxed
cost. -/
structure AInv (g : Graph K H) (fr : K) (C : Finset K)
    (heap : List (SharedPath K H)) (gh : K → H) : Prop where
  heapOk : ∀ p ∈ heap, ∃ last, p.inner.path.getLast? = some last ∧
      IsWalk g fr p.inner.path last.b ∧
      p.inner.total = walkCost p.inner.path ∧
      (∀ x ∈ p.inner.path.dropLast.map fun e => e.b, x ∈ C) ∧
      (p.inner.path.dropLast.map fun e => e.b).Nodup
  ghMin : ∀ z ∈ C, ∀ l, IsWalk g fr l z → l ≠ [] → gh z ≤ walkCost l
  ghAtt : ∀ z ∈ C, ∃ l, IsWalk g fr l z ∧ l ≠ [] ∧ walkCost l = gh z
  seedCover : ∀ e ∈ g.generate_edges fr, e.b ∉ C →
      ∃ p ∈ heap, ∃ lp : Edge K H, p.inner.path.getLast? = some lp ∧
        lp.b = e.b ∧ p.inner.total ≤ e.h
  frontCover : ∀ z ∈ C, ∀ e ∈ g.generate_edges z, e.b ∉ C →
      ∃ p ∈ heap, ∃ lp : Edge K H, p.inner.path.getLast? = some lp ∧
        lp.b = e.b ∧ p.inner.total ≤ gh z + e.h

/-- Any walk from a closed node out of the closed region is covered by a
frontier path of no greater relaxed cost. -/
theorem AInv.frontier {g : Graph K H} {fr : K} {C : Finset K}
    {heap : List (SharedPath K H)} {gh : K → H} (hg : NonnegWeights g)
    (inv : AInv g fr C heap gh) {z t : K} {l : List (Edge K H)}
    (hw : IsWalk g z l t) :
    z ∈ C → t ∉ C → ∃ p ∈ heap, p.inner.total ≤ gh z + walkCost l := by
  induction hw with
  | nil =>
      intro hz ht
      exact absurd hz ht
  | cons he hrest ih =>
      intro hs ht
      rename_i s t2 e l2
      by_cases hb : e.b ∈ C
      · obtain ⟨ws, hws, hwsne, hwscost⟩ := inv.ghAtt _ hs
        have hsnoc : IsWalk g fr (ws ++ [e]) e.b := hws.snoc he
        have hghb : gh e.b ≤ gh s + e.h := by
          have hmin := inv.ghMin e.b hb (ws ++ [e]) hsnoc (by simp)
          rwa [walkCost_append, walkCost_singleton, hwscost] at hmin
        obtain ⟨p, hp, hple⟩ := ih hb ht
        refine ⟨p, hp, le_trans hple ?_⟩
        rw [walkCost_cons, ← add_assoc]
        exact add_le_add_right hghb _
      · obtain ⟨p, hp, lp, _, _, hple⟩ := inv.frontCover s hs e he hb
        refine ⟨p, hp, le_trans hple ?_⟩
        have hnn : 0 ≤ walkCost l2 := walkCost_nonneg hg hrest
        rw [walkCost_cons, ← add_assoc]
        exact le_add_of_nonneg_right hnn

/-- Any nonempty walk from the source out of the closed region is covered by
a frontier path of no greater cost. -/
theorem AInv.cover {g : Graph K H} {fr : K} {C : Finset K}
    {heap : List (SharedPath K H)} {gh : K → H} (hg : NonnegWeights g)
    (inv : AInv g fr C heap gh) {t : K} {l : List (Edge K H)}
    (hw : IsWalk g fr l t) (hne : l ≠ []) (ht : t ∉ C) :
    ∃ p ∈ heap, p.inner.total ≤ walkCost l := by
  cases hw with
  | nil => exact absurd rfl hne
  | cons he hrest =>
      rename_i e l2
      by_cases hb : e.b ∈ C
      · have h1 : gh e.b ≤ e.h := by
          have hmin := inv.ghMin e.b hb [e]
            (IsWalk.cons he (IsWalk.nil e.b)) (by simp)
          rwa [walkCost_singleton] at hmin
        obtain ⟨p, hp, hple⟩ := inv.frontier hg hrest hb ht
        refine ⟨p, hp, le_trans hple ?_⟩
        rw [walkCost_cons]
        exact add_le_add_right h1 _
      · obtain ⟨p, hp, lp, _, _, hple⟩ := inv.seedCover e he hb
        refine ⟨p, hp, le_trans hple ?_⟩
        have hnn : 0 ≤ walkCost l2 := walkCost_nonneg hg hrest
        rw [walkCost_cons]
        exact le_add_of_nonneg_right hnn

/-- Discarding a stale frontier path (its endpoint is already closed)
preserves the invariant. -/
theorem AInv.discard {g : Graph K H} {fr : K} {C : Finset K}
    {heap : List (SharedPath K H)} {gh : K → H} (inv : AInv g fr C heap gh)
    {p : SharedPath K H} {rest : List (SharedPath K H)}
    (hpop : popMax heap = some (p, rest)) {last : Edge K H}
    (hl : p.inner.path.getLast? = some last) (hin : last.b ∈ C) :
    AInv g fr C rest gh := by
  have hsurvive : ∀ (q : SharedPath K H) (lq : Edge K H),
      q ∈ heap → q.inner.path.getLast? = some lq → lq.b ∉ C → q ∈ rest := by
    intro q lq hq hlq hlqb
    refine popMax_mem_rest_of_ne hpop hq ?_
    intro hqp
    rw [hqp, hl] at hlq
    obtain rfl := Option.some.inj hlq
    exact hlqb hin
  refine ⟨?_, inv.ghMin, inv.ghAtt, ?_, ?_⟩
  · exact fun q hq => inv.heapOk q (popMax_rest_mem hpop hq)
  · intro e he hb
    obtain ⟨q, hq, lq, hlq, hlqb, hle⟩ := inv.seedCover e he hb
    exact ⟨q, hsurvive q lq hq hlq (hlqb ▸ hb), lq, hlq, hlqb, hle⟩
  · intro z hz e he hb
    obtain ⟨q, hq, lq, hlq, hlqb, hle⟩ := inv.frontCover z hz e he hb
    exact ⟨q, hsurvive q lq hq hlq (hlqb ▸ hb), lq, hlq, hlqb, hle⟩

/-- Closing the popped path's endpoint and pushing all its one-edge
extensions preserves the invariant, with the ghost cost of the newly closed
node set to the popped path's total. -/
theorem AInv.close {g : Graph K H} {fr : K} {C : Finset K}
    {heap : List (SharedPath K H)} {gh : K → H} (hg : NonnegWeights g)
    (inv : AInv g fr C heap gh) {p : SharedPath K H}
    {rest : List (SharedPath K H)} (hpop : popMax heap = some (p, rest))
    {last : Edge K H} (hl : p.inner.path.getLast? = some last)
    (hnotin : last.b ∉ C) :
    AInv g fr (insert last.b C)
      (rest ++ (g.generate_edges last.b).map fun e =>
        ⟨⟨p.inner.total + e.h, p.inner.path ++ [e], insert e.b p.inner.nodes⟩⟩)
      (fun z => if z = last.b then p.inner.total else gh z) := by
  obtain ⟨last', hl', hwalk, hcost, hdropC, hdropN⟩ :=
    inv.heapOk p (popMax_mem hpop)
  rw [hl] at hl'
  obtain rfl := Option.some.inj hl'
  have hdests : p.inner.path.map (fun e => e.b) =
      (p.inner.path.dropLast.map fun e => e.b) ++ [last.b] :=
    dests_eq_dropLast_concat hl
  have hpne : p.inner.path ≠ [] := by
    intro h
    rw [h] at hl
    simp at hl
  have hTmin : ∀ l, IsWalk g fr l last.b → l ≠ [] →
      p.inner.total ≤ walkCost l := by
    intro l hwl hnel
    obtain ⟨q, hq, hble⟩ := inv.cover hg hwl hnel hnotin
    exact le_trans (popMax_min hpop q hq) hble
  have hsurvive : ∀ (q : SharedPath K H) (lq : Edge K H),
      q ∈ heap → q.inner.path.getLast? = some lq → lq.b ≠ last.b → q ∈ rest := by
    intro q lq hq hlq hlqb
    refine popMax_mem_rest_of_ne hpop hq ?_
    intro hqp
    rw [hqp, hl] at hlq
    obtain rfl := Option.some.inj hlq
    exact hlqb rfl
  constructor
  · intro q hq
    rcases List.mem_append.mp hq with hq | hq
    · obtain ⟨lq, hlq, hwq, hcq, hdC, hdN⟩ :=
        inv.heapOk q (popMax_rest_mem hpop hq)
      exact ⟨lq, hlq, hwq, hcq,
        fun x hx => Finset.mem_insert_of_mem (hdC x hx), hdN⟩
    · rcases List.mem_map.mp hq with ⟨e, he, rfl⟩
      refine ⟨e, by simp, hwalk.snoc he, ?_, ?_, ?_⟩
      · show p.inner.total + e.h = walkCost (p.inner.path ++ [e])
        rw [walkCost_append, walkCost_singleton, hcost]
      · show ∀ x ∈ (p.inner.path ++ [e]).dropLast.map fun e2 => e2.b,
          x ∈ insert last.b C
        rw [List.dropLast_concat, hdests]
        intro x hx
        rcases List.mem_append.mp hx with hx | hx
        · exact Finset.mem_insert_of_mem (hdropC x hx)
        · rw [List.mem_singleton.mp hx]
          exact Finset.mem_insert_self _ _
      · show ((p.inner.path ++ [e]).dropLast.map fun e2 => e2.b).Nodup
        rw [List.dropLast_concat, hdests]
        refine List.nodup_append.mpr ⟨hdropN, List.nodup_singleton _, ?_⟩
        intro x hx hx2
        rw [List.mem_singleton.mp hx2] at hx
        exact hnotin (hdropC _ hx)
  · intro z hz l hwl hnel
    rcases Finset.mem_insert.mp hz with rfl | hz
    · rw [if_pos rfl]
      exact hTmin l hwl hnel
    · rw [if_neg (fun (h : z = last.b) => hnotin (h ▸ hz))]
      exact inv.ghMin z hz l hwl hnel
  · intro z hz
    rcases Finset.mem_insert.mp hz with rfl | hz
    · rw [if_pos rfl]
      exact ⟨p.inner.path, hwalk, hpne, hcost.symm⟩
    · rw [if_neg (fun (h : z = last.b) => hnotin (h ▸ hz))]
      exact inv.ghAtt z hz
  · intro e he hb
    have hbC : e.b ∉ C := fun h => hb (Finset.mem_insert_of_mem h)
    have hbL : e.b ≠ last.b := fun h => hb (h ▸ Finset.mem_insert_self _ _)
    obtain ⟨q, hq, lq, hlq, hlqb, hle⟩ := inv.seedCover e he hbC
    exact ⟨q, List.mem_append_left _ (hsurvive q lq hq hlq (hlqb ▸ hbL)),
      lq, hlq, hlqb, hle⟩
  · intro z hz e he hb
    have hbC : e.b ∉ C := fun h => hb (Finset.mem_insert_of_mem h)
    have hbL : e.b ≠ last.b := fun h => hb (h ▸ Finset.mem_insert_self _ _)
    rcases Finset.mem_insert.mp hz with rfl | hz
    · refine ⟨⟨⟨p.inner.total + e.h, p.inner.path ++ [e],
          insert e.b p.inner.nodes⟩⟩,
        List.mem_append_right _ (List.mem_map_of_mem _ he), e, by simp, rfl, ?_⟩
      rw [if_pos rfl]
    · obtain ⟨q, hq, lq, hlq, hlqb, hle⟩ := inv.frontCover z hz e he hbC
      refine ⟨q, List.mem_append_left _ (hsurvive q lq hq hlq (hlqb ▸ hbL)),
        lq, hlq, hlqb, ?_⟩
      rwa [if_neg (fun (h : z = last.b) => hnotin (h ▸ hz))]

/-- The invariant holds initially: nothing closed, the frontier holds one
single-edge path per outgoing edge of the source. -/
theorem aInv_init (g : Graph K H) (fr : K) :
    AInv g fr ∅ (aStarSeeds g fr) (fun _ => 0) := by
  constructor
  · intro q hq
    rcases List.mem_map.mp hq with ⟨e, he, rfl⟩
    exact ⟨e, rfl, IsWalk.cons he (IsWalk.nil e.b),
      (walkCost_singleton e).symm, by simp, by simp⟩
  · intro z hz
    simp at hz
  · intro z hz
    simp at hz
  · intro e he _
    exact ⟨⟨⟨e.h, [e], {e.a, e.b}⟩⟩, List.mem_map_of_mem _ he, e, rfl, rfl,
      le_refl _⟩
  · intro z hz
    simp at hz

/-- Main loop lemma: under the invariant, if the loop returns at all, it
returns exactly one path whose total is the minimum cost of a nonempty walk
from the source to the target, attained by a simple path. -/
theorem aStarLoop_ok_optimal (g : Graph K H) (fr tgt : K)
    (hg : NonnegWeights g) (hex : ∃ l1, SimplePath g fr l1 tgt) :
    ∀ (fuel : Nat) (C : Finset K) (heap : List (SharedPath K H)) (gh : K → H),
      AInv g fr C heap gh → tgt ∉ C →
      ∀ res, aStarLoop g tgt fuel C heap [] = ARes.ok res →
      ∃ p, res = [p] ∧
        (∃ l0, SimplePath g fr l0 tgt ∧ walkCost l0 = p.inner.total) ∧
        (∀ l, IsWalk g fr l tgt → l ≠ [] → p.inner.total ≤ walkCost l) := by
  intro fuel
  induction fuel with
  | zero =>
      intro C heap gh _ _ res heq
      exact ARes.noConfusion heq
  | succ fuel ih =>
      intro C heap gh inv htgt res heq
      simp only [aStarLoop] at heq
      cases hpop : popMax heap with
      | none =>
          exfalso
          obtain ⟨l1, hw1, hne1, _⟩ := hex
          obtain ⟨q, hq, _⟩ := inv.cover hg hw1 hne1 htgt
          rw [(popMax_none_iff heap).mp hpop] at hq
          simp at hq
      | some pr =>
          obtain ⟨p, rest⟩ := pr
          rw [hpop] at heq
          dsimp only at heq
          cases hl : p.inner.path.getLast? with
          | none =>
              exfalso
              obtain ⟨last, hl', _⟩ := inv.heapOk p (popMax_mem hpop)
              rw [hl] at hl'
              exact Option.noConfusion hl'
          | some last =>
              rw [hl] at heq
              dsimp only at heq
              by_cases hin : last.b ∈ C
              · rw [if_pos hin] at heq
                exact ih C rest gh (inv.discard hpop hl hin) htgt res heq
              · rw [if_neg hin] at heq
                by_cases htg : last.b = tgt
                · rw [if_pos htg] at heq
                  obtain rfl := ARes.ok.inj heq
                  have hmin : ∀ l, IsWalk g fr l tgt → l ≠ [] →
                      p.inner.total ≤ walkCost l := by
                    intro l hwl hnel
                    obtain ⟨q, hq, hble⟩ := inv.cover hg hwl hnel htgt
                    exact le_trans (popMax_min hpop q hq) hble
                  obtain ⟨last', hl', hwalk, hcost, hdropC, hdropN⟩ :=
                    inv.heapOk p (popMax_mem hpop)
                  rw [hl] at hl'
                  obtain rfl := Option.some.inj hl'
                  have hdests : p.inner.path.map (fun e => e.b) =
                      (p.inner.path.dropLast.map fun e => e.b) ++ [last.b] :=
                    dests_eq_dropLast_concat hl
                  have hnodup : (p.inner.path.map fun e => e.b).Nodup := by
                    rw [hdests]
                    refine List.nodup_append.mpr
                      ⟨hdropN, List.nodup_singleton _, ?_⟩
                    intro x hx hx2
                    rw [List.mem_singleton.mp hx2] at hx
                    exact hin (hdropC _ hx)
                  have hpne : p.inner.path ≠ [] := by
                    intro h
                    rw [h] at hl
                    simp at hl
                  have hwt : IsWalk g fr p.inner.path tgt := htg ▸ hwalk
                  obtain ⟨l0, hsp0, hle0⟩ :=
                    extract_simple hg hwt hpne hnodup hex
                  refine ⟨p, rfl, ⟨l0, hsp0, le_antisymm ?_ ?_⟩, hmin⟩
                  · rw [← hcost] at hle0
                    exact hle0
                  · exact hmin l0 hsp0.1 hsp0.2.1
                · rw [if_neg htg, propagate_path_eq_some hl] at heq
                  dsimp only at heq
                  refine ih _ _ _ (inv.close hg hpop hl hin) ?_ res heq
                  intro hmem
                  rcases Finset.mem_insert.mp hmem with h | h
                  · exact htg h.symm
                  · exact htgt h

/-- The chosen fuel is never exhausted: each iteration either shrinks the
heap or closes a fresh node from `heads g`, and each close pushes at most
`numEdges g` extensions. -/
theorem aStarLoop_fuel_enough (g : Graph K H) (tgt : K) :
    ∀ (fuel : Nat) (C : Finset K) (heap acc : List (SharedPath K H)),
      (∀ p ∈ heap, ∃ lp : Edge K H,
          p.inner.path.getLast? = some lp ∧ lp.b ∈ heads g) →
      heap.length + (heads g \ C).card * (numEdges g + 1) < fuel →
      aStarLoop g tgt fuel C heap acc ≠ ARes.fuel := by
  intro fuel
  induction fuel with
  | zero =>
      intro C heap acc _ hbound
      exact absurd hbound (Nat.not_lt_zero _)
  | succ fuel ih =>
      intro C heap acc hheads hbound
      simp only [aStarLoop]
      cases hpop : popMax heap with
      | none =>
          intro hc
          exact ARes.noConfusion hc
      | some pr =>
          obtain ⟨p, rest⟩ := pr
          dsimp only
          have hlen : heap.length = rest.length + 1 := by
            have := (popMax_perm hpop).length_eq
            simpa using this
          have hrestheads : ∀ q ∈ rest, ∃ lp : Edge K H,
              q.inner.path.getLast? = some lp ∧ lp.b ∈ heads g :=
            fun q hq => hheads q (popMax_rest_mem hpop hq)
          cases hl : p.inner.path.getLast? with
          | none =>
              dsimp only
              exact ih C rest acc hrestheads (by omega)
          | some last =>
              dsimp only
              by_cases hin : last.b ∈ C
              · rw [if_pos hin]
                exact ih C rest acc hrestheads (by omega)
              · rw [if_neg hin]
                by_cases htg : last.b = tgt
                · rw [if_pos htg]
                  intro hc
                  exact ARes.noConfusion hc
                · rw [if_neg htg, propagate_path_eq_some hl]
                  refine ih _ _ acc ?_ ?_
                  · intro q hq
                    rcases List.mem_append.mp hq with hq | hq
                    · exact hrestheads q hq
                    · rcases List.mem_map.mp hq with ⟨e, he, rfl⟩
                      exact ⟨e, by simp, generate_edges_b_mem_heads he⟩
                  · have hbheads : last.b ∈ heads g := by
                      obtain ⟨lp, hlp, hlpb⟩ := hheads p (popMax_mem hpop)
                      rw [hl] at hlp
                      obtain rfl := Option.some.inj hlp
                      exact hlpb
                    have hcard : (heads g \ insert last.b C).card + 1 =
                        (heads g \ C).card := by
                      have hdiff : heads g \ insert last.b C =
                          (heads g \ C).erase last.b := by
                        ext x
                        simp only [Finset.mem_sdiff, Finset.mem_erase,
                          Finset.mem_insert]
                        tauto
                      rw [hdiff]
                      exact Finset.card_erase_add_one
                        (Finset.mem_sdiff.mpr ⟨hbheads, hin⟩)
                    have hnews : ((g.generate_edges last.b).map fun e =>
                        (⟨⟨p.inner.total + e.h, p.inner.path ++ [e],
                          insert e.b p.inner.nodes⟩⟩ : SharedPath K H)).length ≤
                        numEdges g := by
                      rw [List.length_map]
                      exact generate_edges_length_le last.b
                    rw [List.length_append]
                    rw [← hcard] at hbound
                    have hexp : ((heads g \ insert last.b C).card + 1) *
                        (numEdges g + 1) =
                        (heads g \ insert last.b C).card * (numEdges g + 1) +
                          numEdges g + 1 := by
                      ring
                    rw [hexp] at hbound
                    omega

/-- A finite check implying `NonnegWeights`: every stored connection has a
non-negative cost. -/
theorem nonnegWeights_of_entries {g : Graph K H}
    (h : ∀ kv ∈ g.map, ∀ c ∈ kv.2, 0 ≤ c.h) : NonnegWeights g := by
  intro k e he
  unfold Graph.generate_edges at he
  cases halg : alGet g.map k with
  | none =>
      rw [halg] at he
      simp at he
  | some conns =>
      rw [halg] at he
      rcases List.mem_map.mp he with ⟨pr, hpr, rfl⟩
      have hc : pr.2 ∈ conns :=
        List.getElem?_mem (List.mem_enum_iff_getElem?.mp hpr)
      exact h (k, conns) (alGet_mem halg) pr.2 hc

end Optimality

section Examples

/-- A five-node graph over keys `0..4` with a negative cycle `1 → 2 → 1`
(weight `-20`) reachable from the source `0` via the edge `0 → 1`. -/
def exG1 : Graph ℕ ℤ :=
  ⟨[(0, [⟨1, 1⟩, ⟨3, 1⟩]), (1, [⟨4, 30⟩, ⟨2, -10⟩]), (2, [⟨1, -10⟩]),
    (3, [⟨4, 1⟩]), (4, [])]⟩

/-- Two nodes with two parallel edges `0 → 1` of weights `3` and `5` (in that
order). -/
def exG3 : Graph ℕ ℤ := ⟨[(0, [⟨1, 3⟩, ⟨1, 5⟩]), (1, [])]⟩

/-- Two nodes and a single edge `0 → 1` of weight `5`. -/
def exG7 : Graph ℕ ℤ := ⟨[(0, [⟨1, 5⟩]), (1, [])]⟩

/-- The empty graph. -/
def exG0 : Graph ℕ ℤ := ⟨[]⟩

/-- A four-node line graph `0 → 1 → 2 → 3`, each edge of weight `1`. -/
def exG4 : Graph ℕ ℤ :=
  ⟨[(0, [⟨1, 1⟩]), (1, [⟨2, 1⟩]), (2, [⟨3, 1⟩]), (3, [])]⟩

/-- The spec's concrete scenario: edges `0 → 1` (cost 1), `1 → 2` (cost 1)
and `0 → 2` (cost 3). -/
def exG2 : Graph ℕ ℤ :=
  ⟨[(0, [⟨1, 1⟩, ⟨2, 3⟩]), (1, [⟨2, 1⟩]), (2, [])]⟩

end Examples

/-- Claim C2: for every graph with non-negative weights, whenever a simple
path from the source to the target exists, `a_star` returns exactly one path
and its total cost equals the minimum total cost over all simple paths from
source to target: the total is attained by a simple path and is a lower
bound on the cost of every simple path (indeed of every nonempty walk). -/
theorem c2_a_star_minimum_cost {K H : Type} [DecidableEq K]
    [LinearOrderedAddCommMonoid H] (g : Graph K H) (fr tgt : K)
    (hg : NonnegWeights g) (hex : ∃ l1, SimplePath g fr l1 tgt) :
    ∃ p, aStar g fr tgt = ARes.ok [p] ∧
      (∃ l0, SimplePath g fr l0 tgt ∧ walkCost l0 = p.inner.total) ∧
      (∀ l, SimplePath g fr l tgt → p.inner.total ≤ walkCost l) := by
  have hseedlast : ∀ p ∈ aStarSeeds g fr, ∃ lp : Edge K H,
      p.inner.path.getLast? = some lp ∧ lp.b ∈ heads g := by
    intro p hp
    rcases List.mem_map.mp hp with ⟨e, he, rfl⟩
    exact ⟨e, rfl, generate_edges_b_mem_heads he⟩
  have hfuel : aStar g fr tgt ≠ ARes.fuel := by
    unfold aStar
    refine aStarLoop_fuel_enough g tgt _ _ _ _ hseedlast ?_
    have h1 : (aStarSeeds g fr).length ≤ numEdges g := by
      unfold aStarSeeds
      rw [List.length_map]
      exact generate_edges_length_le fr
    have h2 : (heads g \ (∅ : Finset K)).card ≤ numEdges g := by
      rw [Finset.sdiff_empty]
      refine le_trans (List.toFinset_card_le _) ?_
      rw [List.length_map, List.length_flatMap]
      exact le_of_eq rfl
    have h3 : numEdges g + numEdges g * (numEdges g + 1) <
        aStarFuel g := by
      unfold aStarFuel
      nlinarith
    calc (aStarSeeds g fr).length +
          (heads g \ (∅ : Finset K)).card * (numEdges g + 1)
        ≤ numEdges g + numEdges g * (numEdges g + 1) := by
          exact Nat.add_le_add h1 (Nat.mul_le_mul_right _ h2)
      _ < aStarFuel g := h3
  have hcrash : aStar g fr tgt ≠ ARes.crash := by
    unfold aStar
    refine aStarLoop_ne_crash g tgt _ _ _ _ ?_
    intro q hq
    rcases List.mem_map.mp hq with ⟨e, _, rfl⟩
    simp
  cases hres : aStar g fr tgt with
  | crash => exact absurd hres hcrash
  | fuel => exact absurd hres hfuel
  | ok res =>
      have hloop : aStarLoop g tgt (aStarFuel g) ∅ (aStarSeeds g fr) [] =
          ARes.ok res := hres
      obtain ⟨p, rfl, hatt, hminw⟩ :=
        aStarLoop_ok_optimal g fr tgt hg hex (aStarFuel g) ∅
          (aStarSeeds g fr) (fun _ => 0) (aInv_init g fr)
          (Finset.not_mem_empty tgt) res hloop
      refine ⟨p, rfl, hatt, ?_⟩
      intro l hsp
      exact hminw l hsp.1 hsp.2.1

/-- Witness for `c2_a_star_minimum_cost` on the spec's concrete scenario:
`a_star` from `0` to `2` must report total `2` (path `0 → 1 → 2`), not the
direct edge of cost `3`. -/
theorem c2_a_star_minimum_cost_witness :
    ∃ p, aStar exG2 0 2 = ARes.ok [p] ∧
      (∃ l0, SimplePath exG2 0 l0 2 ∧ walkCost l0 = p.inner.total) ∧
      (∀ l, SimplePath exG2 0 l 2 → p.inner.total ≤ walkCost l) :=
  c2_a_star_minimum_cost exG2 0 2
    (nonnegWeights_of_entries (by decide))
    ⟨[⟨0, 0, 1, 1⟩, ⟨0, 1, 2, 1⟩],
      IsWalk.cons (by decide) (IsWalk.cons (by decide) (IsWalk.nil _)),
      by decide, by decide⟩

/-- Claim C4: the spec says `Graph::map` maps each key to the set of all
distinct simple paths from the source that terminate at or pass through it,
pushing an extension back for further expansion when its new last node is not
already in the path's visited-node set.  In the code, `propagate_path` inserts
the new last node into the visited set before `map` performs that check, so
the check always fails and no extension is ever expanded further: on the line
graph `0 → 1 → 2 → 3` the result records only the two-edge path to `2` and no
path at all reaches `3`, though the simple path `0 → 1 → 2 → 3` exists. -/
theorem c4_map_never_expands_extensions :
    graphMap exG4 0 =
      MRes.ok [(2, [⟨⟨2, [⟨0, 0, 1, 1⟩, ⟨0, 1, 2, 1⟩], insert 2 {0}⟩⟩])] ∧
    alGet [(2, [(⟨⟨2, [⟨0, 0, 1, 1⟩, ⟨0, 1, 2, 1⟩], insert 2 {0}⟩⟩ :
      SharedPath ℕ ℤ)])] 3 = none ∧
    SimplePath exG4 0 [⟨0, 0, 1, 1⟩, ⟨0, 1, 2, 1⟩, ⟨0, 2, 3, 1⟩] 3 := by
  refine ⟨rfl, rfl, ?_, by decide, by decide⟩
  exact IsWalk.cons (by decide)
    (IsWalk.cons (by decide) (IsWalk.cons (by decide) (IsWalk.nil _)))

/-- Claim C5 (counterexample): the claim asserts that for every path produced
by the core's searches the `nodes` set equals the start key plus every edge
destination.  `Graph::map` seeds its paths with `nodes = {edge.a}` only
(`graph.rs` line 54), so on the single-edge graph `0 → 1` the recorded path
`[0 → 1]` carries `nodes = {0}`, while walking its edge list yields
`{0, 1}`. -/
theorem c5_map_nodes_not_round_trip :
    graphMap exG7 0 = MRes.ok [(1, [⟨⟨5, [⟨0, 0, 1, 5⟩], {0}⟩⟩])] ∧
    walkNodes 0 [(⟨0, 0, 1, 5⟩ : Edge ℕ ℤ)] = {0, 1} ∧
    ({0} : Finset ℕ) ≠ {0, 1} := by
  refine ⟨rfl, by simp [walkNodes], ?_⟩
  intro h
  have h1 : (1 : ℕ) ∈ ({0} : Finset ℕ) := h ▸ (by simp)
  simp at h1

/-- Claim C5 (amended): the round trip holds for every path produced by
`a_star` — its `nodes` set is the first edge's origin plus every edge
destination — while every path recorded by `Graph::map` instead carries the
first edge's origin plus the destinations of the edges after the first, the
first edge's destination being omitted (the discrepancy of the
counterexample). -/
theorem c5_nodes_round_trip_amended {K H : Type} [DecidableEq K]
    [LinearOrderedAddCommMonoid H] (g : Graph K H) (fr tgt : K) :
    (∀ res p, aStar g fr tgt = ARes.ok res → p ∈ res → HeadNodes p) ∧
    (∀ m kv p, graphMap g fr = MRes.ok m → kv ∈ m → p ∈ kv.2 → TailNodes p) := by
  constructor
  · intro res p heq hp
    refine aStarLoop_ok_headNodes g tgt _ _ _ _ _ ?_ ?_ heq p hp
    · intro q hq
      rcases List.mem_map.mp hq with ⟨e, _, rfl⟩
      refine ⟨e, [], rfl, ?_⟩
      simp [walkNodes]
    · intro q hq
      simp at hq
  · intro m kv p heq hkv hp
    refine mapLoop_ok_tailNodes g _ _ _ _ ?_ ?_ heq kv hkv p hp
    · intro q hq
      rw [List.mem_reverse] at hq
      rcases List.mem_map.mp hq with ⟨e, _, rfl⟩
      refine ⟨e, [], rfl, ?_⟩
      simp [SharedPath.new]
    · intro kv' hkv' q hq
      simp at hkv'

/-- Witness for `c5_nodes_round_trip_amended` on the single-edge graph. -/
theorem c5_nodes_round_trip_witness :
    HeadNodes (⟨⟨5, [⟨0, 0, 1, 5⟩], {0, 1}⟩⟩ : SharedPath ℕ ℤ) ∧
    TailNodes (⟨⟨5, [⟨0, 0, 1, 5⟩], {0}⟩⟩ : SharedPath ℕ ℤ) :=
  ⟨(c5_nodes_round_trip_amended exG7 0 1).1 [⟨⟨5, [⟨0, 0, 1, 5⟩], {0, 1}⟩⟩] _
      rfl (List.mem_singleton_self _),
   (c5_nodes_round_trip_amended exG7 0 0).2
      [(1, [⟨⟨5, [⟨0, 0, 1, 5⟩], {0}⟩⟩])] (1, [⟨⟨5, [⟨0, 0, 1, 5⟩], {0}⟩⟩]) _
      rfl (List.mem_singleton_self _) (List.mem_singleton_self _)⟩

/-- Claim C10: `propagate_path` panics exactly on a path with an empty edge
list, and the in-core callers never trigger it: both `Graph::map` and
`a_star` only call it on paths that have a last edge (the zero-length seed
path exists only in the single-target `bellman_ford`, which never calls
`propagate_path`), so neither operation can reach the panic. -/
theorem c10_propagate_path_panic_contract {K H : Type} [DecidableEq K]
    [LinearOrderedAddCommMonoid H] (g : Graph K H) (p : SharedPath K H)
    (fr tgt : K) :
    (g.propagate_path p = none ↔ p.inner.path = []) ∧
    graphMap g fr ≠ MRes.crash ∧
    aStar g fr tgt ≠ ARes.crash := by
  refine ⟨propagate_path_none_iff g p, ?_, ?_⟩
  · refine mapLoop_ne_crash g _ _ _ ?_
    intro q hq
    rw [List.mem_reverse] at hq
    rcases List.mem_map.mp hq with ⟨e, _, rfl⟩
    simp [SharedPath.new]
  · refine aStarLoop_ne_crash g tgt _ _ _ _ ?_
    intro q hq
    rcases List.mem_map.mp hq with ⟨e, _, rfl⟩
    simp

/-- Witness for `c10_propagate_path_panic_contract` on `exG7` and the empty
seed path. -/
theorem c10_propagate_path_witness :
    (exG7.propagate_path ⟨⟨0, [], {0}⟩⟩ = none ↔
      (⟨⟨0, [], {0}⟩⟩ : SharedPath ℕ ℤ).inner.path = []) ∧
    graphMap exG7 0 ≠ MRes.crash ∧
    aStar exG7 0 1 ≠ ARes.crash :=
  c10_propagate_path_panic_contract exG7 ⟨⟨0, [], {0}⟩⟩ 0 1

/-- Claim C1: the spec says that on a graph with a negative cycle reachable
from the source, the all-destinations `bellman_ford` returns the `Err` edge
sequence forming a strictly negative closed walk.  On `exG1` the negative
cycle `1 → 2 → 1` (total `-20`) is reachable from source `0`, the detection
round fires on the still-relaxable edge `1 → 4`, and the cycle reconstruction
then follows predecessor pointers from node `4` through `3` into the absent
source entry, so `paths.get(...).unwrap()` panics instead of returning the
cycle. -/
theorem c1_negative_cycle_reconstruction_crashes :
    bellmanFordAll exG1 0 = BFRes.crash ∧
    IsWalk exG1 0 [⟨0, 0, 1, 1⟩] 1 ∧
    IsWalk exG1 1 [⟨1, 1, 2, -10⟩, ⟨0, 2, 1, -10⟩] 1 ∧
    walkCost [(⟨1, 1, 2, -10⟩ : Edge ℕ ℤ), ⟨0, 2, 1, -10⟩] < 0 := by
  refine ⟨by decide, ?_, ?_, by decide⟩
  · exact IsWalk.cons (by decide) (IsWalk.nil _)
  · exact IsWalk.cons (by decide) (IsWalk.cons (by decide) (IsWalk.nil _))

/-- Claim C3: the spec says the `Ok` cost of each reached node is the minimum
cost of a walk from the source with at most `|V| - 1` edges.  On `exG3`
(`|V| - 1 = 1`) the seeding loop inserts the parallel source edges
unconditionally, so the later weight-`5` edge overwrites the weight-`3` one
and the reported cost for node `1` is `5`, though a one-edge walk of cost `3`
exists. -/
theorem c3_parallel_source_edges_not_minimal :
    bellmanFordAll exG3 0 = BFRes.ok [(1, (5, []))] ∧
    IsWalk exG3 0 [⟨0, 0, 1, 3⟩] 1 ∧
    walkCost [(⟨0, 0, 1, 3⟩ : Edge ℕ ℤ)] = 3 ∧ (3 : ℤ) < 5 := by
  refine ⟨by decide, IsWalk.cons (by decide) (IsWalk.nil _), by decide, by decide⟩

/-- Claim C7: the spec says every entry of the `Ok` map carries an edge
sequence reconstructing the path from the source (first edge starting at the
source, last edge ending at the node).  On `exG7` the source `0` has no
incoming edge, hence no entry in `paths`, so the reconstruction's
`while let Some(prev) = paths.get(&current_edge.a)` fails on the very first
check and node `1` is reported with cost `5` but an empty edge sequence. -/
theorem c7_reconstruction_returns_empty_path :
    bellmanFordAll exG7 0 = BFRes.ok [(1, (5, []))] ∧
    IsWalk exG7 0 [⟨0, 0, 1, 5⟩] 1 ∧
    (([] : List (Edge ℕ ℤ)).getLast? = none) := by
  refine ⟨by decide, IsWalk.cons (by decide) (IsWalk.nil _), rfl⟩

/-- Claim C6: `Path`s compare by total, reversed — a strictly larger total
sorts as `lt`, a strictly smaller one as `gt`, equal totals as `eq` — and
comparing two `SharedPath` values is exactly the comparison of their
pointed-to `Path`s. -/
theorem c6_ordering_reversed_and_delegated {K H : Type} [LinearOrder H]
    (p q : Path K H) (sp sq : SharedPath K H) :
    (Path.cmp p q = Ordering.lt ↔ q.total < p.total) ∧
    (Path.cmp p q = Ordering.gt ↔ p.total < q.total) ∧
    (Path.cmp p q = Ordering.eq ↔ p.total = q.total) ∧
    SharedPath.cmp sp sq = Path.cmp sp.inner sq.inner := by
  refine ⟨compare_lt_iff_lt, compare_gt_iff_gt, ?_, rfl⟩
  rw [Path.cmp, compare_eq_iff_eq, eq_comm]

/-- Witness for `c6_ordering_reversed_and_delegated` on totals `3 < 5`. -/
theorem c6_ordering_witness :
    Path.cmp (⟨5, [], ∅⟩ : Path ℕ ℤ) ⟨3, [], ∅⟩ = Ordering.lt ∧
    SharedPath.cmp (⟨⟨5, [], ∅⟩⟩ : SharedPath ℕ ℤ) ⟨⟨3, [], ∅⟩⟩ =
      Path.cmp (⟨5, [], ∅⟩ : Path ℕ ℤ) ⟨3, [], ∅⟩ :=
  ⟨(c6_ordering_reversed_and_delegated ⟨5, [], ∅⟩ ⟨3, [], ∅⟩ ⟨⟨5, [], ∅⟩⟩
      ⟨⟨3, [], ∅⟩⟩).1.mpr (by decide),
   (c6_ordering_reversed_and_delegated (⟨5, [], ∅⟩ : Path ℕ ℤ) ⟨3, [], ∅⟩
      ⟨⟨5, [], ∅⟩⟩ ⟨⟨3, [], ∅⟩⟩).2.2.2⟩

/-- Claim C8: `generate_edges` of a key absent from the node map is the empty
sequence (not an error), and for any key the `i`-th returned edge carries the
sequential id `i` (ids start at 0 for each call). -/
theorem c8_generate_edges_contract {K H : Type} [DecidableEq K]
    (g : Graph K H) (key : K) :
    (alGet g.map key = none → g.generate_edges key = []) ∧
    (∀ (i : Nat) (e : Edge K H),
        (g.generate_edges key).get? i = some e → e.id = i) :=
  ⟨generate_edges_absent g key, fun i e h => generate_edges_ids g key i e h⟩

/-- Witness for `c8_generate_edges_contract`: key `2` is absent from `exG7`,
and the edge at position `0` of key `0` has id `0`. -/
theorem c8_generate_edges_witness :
    exG7.generate_edges 2 = [] ∧ (⟨0, 0, 1, 5⟩ : Edge ℕ ℤ).id = 0 :=
  ⟨(c8_generate_edges_contract exG7 2).1 (by decide),
   (c8_generate_edges_contract exG7 0).2 0 ⟨0, 0, 1, 5⟩ (by decide)⟩

/-- Claim C9 (counterexample): the claim asserts that with at least one node
both variants are total; the all-destinations variant still panics on `exG1`,
whose map has five nodes. -/
theorem c9_nonempty_map_yet_crash :
    exG1.map.length = 5 ∧ bellmanFordAll exG1 0 = BFRes.crash :=
  ⟨rfl, by decide⟩

/-- Claim C9 (amended): both variants compute the round bound as `|V| - 1` in
unsigned arithmetic before any early exit, so on an empty node map both panic
from the underflow; with at least one node the bound is well-defined and the
single-target variant always returns a value (the all-destinations variant
may still panic later, during negative-cycle reconstruction). -/
theorem c9_round_bound_underflow {K H : Type} [DecidableEq K]
    [LinearOrderedAddCommMonoid H] (g : Graph K H) (fr s t : K) :
    (g.map = [] → bellmanFordAll g fr = BFRes.crash ∧ bellmanFordST g s t = none) ∧
    (g.map ≠ [] → ∃ r, bellmanFordST g s t = some r) := by
  constructor
  · intro h
    constructor
    · unfold bellmanFordAll
      rw [h]
      rfl
    · unfold bellmanFordST
      rw [h]
      rfl
  · intro h
    cases hm : g.map with
    | nil => exact absurd hm h
    | cons kv rest =>
        unfold bellmanFordST
        rw [hm]
        exact ⟨_, rfl⟩

/-- Witness for `c9_round_bound_underflow` at the empty graph and at `exG7`. -/
theorem c9_round_bound_underflow_witness :
    (bellmanFordAll exG0 0 = BFRes.crash ∧ bellmanFordST exG0 0 1 = none) ∧
    (∃ r, bellmanFordST exG7 0 1 = some r) :=
  ⟨(c9_round_bound_underflow exG0 0 0 1).1 rfl,
   (c9_round_bound_underflow exG7 0 0 1).2 (by decide)⟩

end GraphCore
